import Mathlib

/-!
Verification development for the sw build orchestrator core.

Shallow embedding of:
- `InputDatabase::setupInput` and the inputs table (src/sw/core/sw_context.cpp)
- `SwContext::addInput` driver selection and the by-hash input cache
- `ResourcePool` (include/sw/builder/command.h)
- `RemoteStorage::install` (src/sw/manager/storage_remote.cpp)
- `SwContext::registerDriver`, `createSwContext`, `Driver::getPackageId`
- `Driver::load` / the file-scope static `spec` string (src/sw/driver/driver.cpp)
- `SwCoreContext::setEntryPoint` (src/sw/core/sw_context.cpp)

Paths are modeled as already-normalized strings (`normalize_path` is the
identity on them), file times as naturals, and the two external hash
functions (`std::hash<fs::path>` and the specification content hash) as
parameters bundled in `HashModel`.
-/

namespace SW

/-! Filesystem model: a finite list of files, each with contents and a
last-write-time. `fs::last_write_time` / `read_file` fail (throw) on a
missing path, which we model with `Except`. -/

abbrev SwPath := String

structure FsEntry where
  path : SwPath
  contents : String
  mtime : Nat
deriving DecidableEq, Repr

abbrev FS := List FsEntry

def readFile (fs : FS) (p : SwPath) : Option String :=
  (fs.find? (fun e => e.path = p)).map (fun e => e.contents)

def statMtime (fs : FS) (p : SwPath) : Option Nat :=
  (fs.find? (fun e => e.path = p)).map (fun e => e.mtime)

inductive DbError
  | fileNotFound (p : SwPath)
deriving DecidableEq, Repr

def readFileE (fs : FS) (p : SwPath) : Except DbError String :=
  match readFile fs p with
  | some c => .ok c
  | none => .error (.fileNotFound p)

def statMtimeE (fs : FS) (p : SwPath) : Except DbError Nat :=
  match statMtime fs p with
  | some t => .ok t
  | none => .error (.fileNotFound p)

/-! Inputs (src/sw/core/input.h consumers). An input carries a path, a type
and the list of files its specification spans (`spec->files`, in the
specification's iteration order). `objId` models the identity of the
heap-allocated `Input` object so that reuse of a cached object is
observable. -/

inductive InputType
  | specificationFile
  | inlineSpecification
  | directorySpecificationFile
  | installedPackage
  | directory
deriving DecidableEq, Repr

structure Input where
  objId : Nat
  path : SwPath
  itype : InputType
  specFiles : List SwPath
deriving DecidableEq, Repr

/-- The two external hash functions: `std::hash<fs::path>` used for
directory inputs, and the content hash used by the specification. -/
structure HashModel where
  pathHash : SwPath → Nat
  contentHash : String → Nat

def readFiles (fs : FS) : List SwPath → Except DbError (List String)
  | [] => .ok []
  | f :: rest => do
    let c ← readFileE fs f
    let cs ← readFiles fs rest
    .ok (c :: cs)

/-- Modelled from the spec: `Specification::getHash` (the `Specification`
class is not among the given sources) — a SHA-like hash over the
concatenated contents of the specification's files. -/
def specificationHash (H : HashModel) (fs : FS) (files : List SwPath) : Option Nat :=
  match readFiles fs files with
  | .ok cs => some (H.contentHash (String.join cs))
  | .error _ => none

/-! The input database (`InputDatabase::setupInput`). One table
`files(file_id PK, path, hash, last_write_time)`; modelled from the spec's
schema, `path` carries no uniqueness constraint, so the table is a list of
rows in rowid (insertion) order and `insert_into` appends. -/

structure Row where
  fileId : Nat
  path : SwPath
  hash : Nat
  lastWriteTime : Nat
deriving DecidableEq, Repr

abbrev DB := List Row

def dbInsert (db : DB) (p : SwPath) (h lwt : Nat) : DB :=
  db ++ [⟨db.length, p, h, lwt⟩]

/-- The insert loop of `set_input`: one row per constituent file, each with
the freshly computed hash and the file's current last-write-time. -/
def insertSpecRows (fs : FS) (hv : Nat) (db : DB) : List SwPath → Except DbError DB
  | [] => .ok db
  | f :: rest => do
    let lwt ← statMtimeE fs f
    insertSpecRows fs hv (dbInsert db f hv lwt) rest

structure SetupResult where
  hash : Nat
  db : DB
  recomputed : Bool
deriving DecidableEq, Repr

/-- The `set_input` lambda in `InputDatabase::setupInput`: recompute the
specification hash and insert one row per constituent file. The
`recomputed` flag records that file contents were read and hashed. -/
def setInput (H : HashModel) (fs : FS) (db : DB) (i : Input) : Except DbError SetupResult := do
  let cs ← readFiles fs i.specFiles
  let hv := H.contentHash (String.join cs)
  let db2 ← insertSpecRows fs hv db i.specFiles
  .ok ⟨hv, db2, true⟩

/-- The re-stat loop: `ok &= memcmp(stored lwt, current lwt) == 0` over all
rows sharing the stored hash (no early exit; a failing stat throws). -/
def checkRows (fs : FS) : List Row → Bool → Except DbError Bool
  | [], acc => .ok acc
  | row :: rest, acc => do
    let lwt ← statMtimeE fs row.path
    checkRows fs rest (acc && (row.lastWriteTime == lwt))

/-- The SELECT with `file.path == normalize_path(i.getPath())`, in rowid
order. -/
def rowsWithPath (db : DB) (p : SwPath) : List Row :=
  db.filter (fun row => row.path == p)

/-- The SELECT with `file.hash == q.front().hash.value()`, in rowid order. -/
def rowsWithHash (db : DB) (h : Nat) : List Row :=
  db.filter (fun row => row.hash == h)

/-- `InputDatabase::setupInput`. Directory inputs are hashed by path only;
otherwise rows with the input's path are looked up, the rows sharing the
first such row's hash are re-statted, and on a full match the stored hash
is adopted, else `set_input` recomputes. -/
def setupInput (H : HashModel) (fs : FS) (db : DB) (i : Input) : Except DbError SetupResult :=
  if i.itype = InputType.directory then
    .ok ⟨H.pathHash i.path, db, false⟩
  else
    match rowsWithPath db i.path with
    | [] => setInput H fs db i
    | r :: _ => do
      let acc ← checkRows fs (rowsWithHash db r.hash) true
      if acc then .ok ⟨r.hash, db, false⟩ else setInput H fs db i

/-- Contents of a list of files (defined where every file is present). -/
def contentsOf (fs : FS) (files : List SwPath) : List String :=
  files.map (fun f => (readFile fs f).getD "")

/-- Closed form of the rows appended by `set_input` (fileIds continue from
`n`, every row carries the hash `hv` and the file's current mtime). -/
def mkRows (fs : FS) (hv : Nat) (n : Nat) : List SwPath → List Row
  | [] => []
  | f :: rest => ⟨n, f, hv, (statMtime fs f).getD 0⟩ :: mkRows fs hv (n + 1) rest

/-! The context's input cache (`SwContext::inputs`, a map from hash to the
owning pointer). `emplace` inserts only when the key is absent and returns
the stored object. -/

abbrev InputMap := List (Nat × Input)

def lookupInput (m : InputMap) (h : Nat) : Option Input :=
  (m.find? (fun q => q.1 = h)).map (fun q => q.2)

def emplaceInput (m : InputMap) (h : Nat) (i : Input) : InputMap × Input :=
  match lookupInput m h with
  | some stored => (m, stored)
  | none => (m ++ [(h, i)], i)

structure AddState where
  db : DB
  inputs : InputMap
deriving DecidableEq, Repr

/-- The inner loop of `SwContext::addInput`'s `findDriver` lambda: for each
detected input, `db.setupInput(*i)` assigns its hash, then
`inputs.emplace(h, move(i))` stores or reuses, and the stored object's
address is pushed onto `inputs_local` (returned here paired with the
hash). -/
def addDetected (H : HashModel) (fs : FS) :
    AddState → List Input → Except DbError (AddState × List (Input × Nat))
  | st, [] => .ok (st, [])
  | st, i :: rest => do
    let r ← setupInput H fs st.db i
    let m2 := (emplaceInput st.inputs r.hash i).1
    let stored := (emplaceInput st.inputs r.hash i).2
    let res ← addDetected H fs ⟨r.db, m2⟩ rest
    .ok (res.1, (stored, r.hash) :: res.2)

/-! Driver selection in `SwContext::addInput`. Drivers live in an ordered
map from package id to driver object; `detectInputs` is the per-driver
detection function. An empty detection list means the driver declines and
the loop continues with the next driver. -/

abbrev DriverId := Nat
abbrev Detect := DriverId → SwPath → InputType → List Input

def findDriver (H : HashModel) (fs : FS) (detect : Detect)
    (drivers : List (String × DriverId)) (p : SwPath) (ty : InputType) (st : AddState) :
    Except DbError (Option (AddState × List (Input × Nat))) :=
  match drivers with
  | [] => .ok none
  | (_, d) :: rest =>
    match detect d p ty with
    | [] => findDriver H fs detect rest p ty st
    | i :: is => do
      let res ← addDetected H fs st (i :: is)
      .ok (some res)

inductive FileKind | regular | directory | other
deriving DecidableEq, Repr

inductive AddError
  | dbError (e : DbError)
  | badFileType
  | noDriverAccepted
deriving DecidableEq, Repr

/-- Short-circuit pair of `findDriver` calls as in
`if (!findDriver(t1) && !findDriver(t2)) SW_UNIMPLEMENTED;` — when every
driver declines both types the run aborts; the spec names this abort
`NoDriverAccepted`. -/
def tryTwoTypes (H : HashModel) (fs : FS) (detect : Detect)
    (drivers : List (String × DriverId)) (p : SwPath) (t1 t2 : InputType) (st : AddState) :
    Except AddError (AddState × List (Input × Nat)) :=
  match findDriver H fs detect drivers p t1 st with
  | .error e => .error (.dbError e)
  | .ok (some res) => .ok res
  | .ok none =>
    match findDriver H fs detect drivers p t2 st with
    | .error e => .error (.dbError e)
    | .ok (some res) => .ok res
    | .ok none => .error .noDriverAccepted

/-- `SwContext::addInput(path)` after the stat: regular files try
SpecificationFile then InlineSpecification, directories try
DirectorySpecificationFile then Directory; other file types throw. -/
def addInputPath (H : HashModel) (fs : FS) (detect : Detect)
    (drivers : List (String × DriverId)) (p : SwPath) (kind : FileKind) (st : AddState) :
    Except AddError (AddState × List (Input × Nat)) :=
  match kind with
  | .regular => tryTwoTypes H fs detect drivers p .specificationFile .inlineSpecification st
  | .directory => tryTwoTypes H fs detect drivers p .directorySpecificationFile .directory st
  | .other => .error .badFileType

/-! `ResourcePool` (include/sw/builder/command.h). State is the counter `n`
plus the (ghost) number of current holders. `lock` with `n == -1` returns
immediately; otherwise it waits until `n > 0` and decrements. `unlock`
increments and wakes a waiter. A schedule is a sequence of atomic
acquire/release events; a release is only ever performed by a command that
holds the pool, so it requires a positive holder count. -/

structure PoolState where
  n : Int
  holders : Nat
deriving DecidableEq, Repr

inductive PoolEvent | acquire | release
deriving DecidableEq, Repr

def poolStep (s : PoolState) : PoolEvent → Option PoolState
  | .acquire =>
    if s.n = -1 then some ⟨s.n, s.holders + 1⟩
    else if 0 < s.n then some ⟨s.n - 1, s.holders + 1⟩
    else none
  | .release =>
    if s.holders = 0 then none
    else if s.n = -1 then some ⟨s.n, s.holders - 1⟩
    else some ⟨s.n + 1, s.holders - 1⟩

def runPool (s : PoolState) : List PoolEvent → Option PoolState
  | [] => some s
  | e :: es =>
    match poolStep s e with
    | some s2 => runPool s2 es
    | none => none

/-- Invariant of a capacity-`N` pool: the counter never goes negative and
counter plus holders is the capacity. -/
def poolInv (N : Nat) (s : PoolState) : Prop :=
  0 ≤ s.n ∧ s.n + s.holders = N

/-! `RemoteStorage::install` (src/sw/manager/storage_remote.cpp). The local
packages database decides installedness; materializing a missing package
removes its directory, downloads the source archive and records the
package in the database. -/

structure LocalPackage where
  id : String
deriving DecidableEq, Repr

inductive StoreEffect
  | removeDir (pkg : String)
  | downloadArchive (pkg : String)
  | dbInstallPackage (pkg : String)
deriving DecidableEq, Repr

structure StorageState where
  installed : List String
deriving DecidableEq, Repr

def isPackageInstalled (s : StorageState) (pkg : String) : Bool :=
  s.installed.contains pkg

def install (s : StorageState) (pkg : String) : LocalPackage × StorageState × List StoreEffect :=
  if isPackageInstalled s pkg then
    (⟨pkg⟩, s, [])
  else
    (⟨pkg⟩, ⟨s.installed ++ [pkg]⟩,
      [.removeDir pkg, .downloadArchive pkg, .dbInstallPackage pkg])

/-! Driver registration (`SwContext::registerDriver`, `createSwContext` in
src/sw/client/common/common.cpp, `Driver::getPackageId` in
src/sw/driver/driver.cpp). The registry is `std::map` keyed by the
caller-supplied package id; `insert_or_assign` stores the driver under
that key. -/

def insertOrAssign : List (String × DriverId) → String → DriverId → List (String × DriverId)
  | [], k, v => [(k, v)]
  | (k2, v2) :: rest, k, v =>
    if k2 = k then (k, v) :: rest else (k2, v2) :: insertOrAssign rest k v

def registerDriver (drivers : List (String × DriverId)) (pkg : String) (d : DriverId) :
    List (String × DriverId) :=
  insertOrAssign drivers pkg d

def lookupDriver (drivers : List (String × DriverId)) (pkg : String) : Option DriverId :=
  (drivers.find? (fun q => q.1 = pkg)).map (fun q => q.2)

/-- `Driver::getPackageId` in src/sw/driver/driver.cpp. -/
def driverGetPackageId : String := "org.sw.sw.driver.cpp-0.3.0"

def cppDriver : DriverId := 0

/-- The driver registration performed by `createSwContext` in
src/sw/client/common/common.cpp. -/
def createSwContextDrivers : List (String × DriverId) :=
  registerDriver [] "org.sw.sw.driver.cpp-0.3.1" cppDriver

/-! `Driver::load` and the file-scope `static String spec` in
src/sw/driver/driver.cpp. The static is process-wide state shared by all
driver objects; only the DirectorySpecificationFile branch of `load`
writes it. `fes` is `Build::getAvailableFrontendConfigFilenames()` (not
among the given sources), passed as a parameter. -/

structure DriverState where
  spec : String
deriving DecidableEq, Repr

inductive LoadInput
  | directorySpecificationFile (dir : SwPath)
  | installedPackage (pkg : String)
deriving DecidableEq, Repr

inductive LoadError
  | configNotFound (dir : SwPath)
deriving DecidableEq, Repr

/-- `findConfig` in src/sw/driver/driver.cpp: the first frontend filename
that exists inside the directory. -/
def findConfig (fs : FS) (dir : SwPath) : List String → Option SwPath
  | [] => none
  | fn :: rest =>
    if (readFile fs (dir ++ "/" ++ fn)).isSome then some (dir ++ "/" ++ fn)
    else findConfig fs dir rest

/-- `Driver::load`: installed-package inputs only collect their package id
(handed to `load_packages` afterwards, which does not touch the static);
a directory-specification input resolves its config file and overwrites
the static `spec` with the file's contents. -/
def driverLoad (fs : FS) (fes : List String) (st : DriverState) :
    List LoadInput → Except LoadError (DriverState × List String)
  | [] => .ok (st, [])
  | .installedPackage pkg :: rest => do
    let res ← driverLoad fs fes st rest
    .ok (res.1, pkg :: res.2)
  | .directorySpecificationFile dir :: rest =>
    match findConfig fs dir fes with
    | none => .error (.configNotFound dir)
    | some p =>
      match readFile fs p with
      | none => .error (.configNotFound dir)
      | some c => driverLoad fs fes ⟨c⟩ rest

/-- `Driver::getSpecification` returns the file-scope static, whatever
driver object (`d`) it is called on. -/
def getSpecification (d : DriverId) (st : DriverState) : String :=
  st.spec

/-! `SwCoreContext::setEntryPoint` (src/sw/core/sw_context.cpp). Entry
points are shared pointers compared by identity, modeled as naturals with
`none` for the null pointer. -/

structure LocalPkg where
  id : String
  isRelativePath : Bool
  groupNumber : Int
deriving DecidableEq, Repr

structure EpState where
  entryPoints : List (String × Nat)
  entryPointsByGroupNumber : List (Int × Nat)
deriving DecidableEq, Repr

inductive EpError
  | settingTwicePackage (pkg : String)
  | settingTwiceGroupNumber (gn : Int)
deriving DecidableEq, Repr

def lookupEp (l : List (String × Nat)) (k : String) : Option Nat :=
  (l.find? (fun q => q.1 = k)).map (fun q => q.2)

def lookupEpGn (l : List (Int × Nat)) (k : Int) : Option Nat :=
  (l.find? (fun q => q.1 = k)).map (fun q => q.2)

/-- `setEntryPoint(PackageVersionGroupNumber, ep)`: group number 0 is
silently ignored; a different entry point for a registered group number
throws. -/
def setEntryPointGn (st : EpState) (gn : Int) (ep : Nat) : Except EpError EpState :=
  if gn = 0 then .ok st
  else
    match lookupEpGn st.entryPointsByGroupNumber gn with
    | some e => if e ≠ ep then .error (.settingTwiceGroupNumber gn) else .ok st
    | none =>
      .ok { st with entryPointsByGroupNumber := st.entryPointsByGroupNumber ++ [(gn, ep)] }

/-- `setEntryPoint(LocalPackage, ep)`: a null entry point is ignored; a
different entry point for a registered package throws; a fresh
registration also registers the group number unless the package path is
relative. -/
def setEntryPointPkg (st : EpState) (p : LocalPkg) (ep : Option Nat) : Except EpError EpState :=
  match ep with
  | none => .ok st
  | some e =>
    match lookupEp st.entryPoints p.id with
    | some e0 => if e0 ≠ e then .error (.settingTwicePackage p.id) else .ok st
    | none =>
      let st2 := { st with entryPoints := st.entryPoints ++ [(p.id, e)] }
      if p.isRelativePath then .ok st2
      else setEntryPointGn st2 p.groupNumber e

/-- A concrete hash model used only by witnesses of the theorems below. -/
def demoHash : HashModel where
  pathHash := fun p => p.length
  contentHash := fun c => c.length

/-! Theorems. -/

theorem except_bind_ok {ε α β : Type} (a : α) (f : α → Except ε β) :
    (Except.ok a : Except ε α) >>= f = f a := rfl

theorem except_bind_error {ε α β : Type} (e : ε) (f : α → Except ε β) :
    (Except.error e : Except ε α) >>= f = .error e := rfl

theorem readFileE_ok {fs : FS} {p : SwPath} {c : String} :
    readFileE fs p = .ok c ↔ readFile fs p = some c := by
  unfold readFileE
  cases h : readFile fs p <;> simp

theorem statMtimeE_ok {fs : FS} {p : SwPath} {t : Nat} :
    statMtimeE fs p = .ok t ↔ statMtime fs p = some t := by
  unfold statMtimeE
  cases h : statMtime fs p <;> simp

theorem readFiles_eq (fs : FS) (files : List SwPath)
    (hpres : ∀ f ∈ files, (readFile fs f).isSome) :
    readFiles fs files = .ok (contentsOf fs files) := by
  induction files with
  | nil => rfl
  | cons f rest ih =>
    obtain ⟨c, hc⟩ := Option.isSome_iff_exists.mp (hpres f (by simp))
    have ih2 := ih (fun g hg => hpres g (by simp [hg]))
    simp [readFiles, readFileE, hc, ih2, contentsOf, except_bind_ok, except_bind_error]

theorem specificationHash_eq (H : HashModel) (fs : FS) (files : List SwPath)
    (hpres : ∀ f ∈ files, (readFile fs f).isSome) :
    specificationHash H fs files =
      some (H.contentHash (String.join (contentsOf fs files))) := by
  simp [specificationHash, readFiles_eq fs files hpres]

theorem insertSpecRows_eq (fs : FS) (hv : Nat) (db : DB) (files : List SwPath)
    (hpres : ∀ f ∈ files, (statMtime fs f).isSome) :
    insertSpecRows fs hv db files = .ok (db ++ mkRows fs hv db.length files) := by
  induction files generalizing db with
  | nil => simp [insertSpecRows, mkRows]
  | cons f rest ih =>
    obtain ⟨t, ht⟩ := Option.isSome_iff_exists.mp (hpres f (by simp))
    have ih2 := ih (dbInsert db f hv t) (fun g hg => hpres g (by simp [hg]))
    simp only [insertSpecRows, statMtimeE, ht, except_bind_ok, except_bind_error, mkRows]
    simpa [dbInsert, List.append_assoc] using ih2

theorem setInput_eq (H : HashModel) (fs : FS) (db : DB) (i : Input)
    (hpres : ∀ f ∈ i.specFiles, (readFile fs f).isSome ∧ (statMtime fs f).isSome) :
    setInput H fs db i =
      .ok ⟨H.contentHash (String.join (contentsOf fs i.specFiles)),
        db ++ mkRows fs (H.contentHash (String.join (contentsOf fs i.specFiles)))
          db.length i.specFiles, true⟩ := by
  have h1 := readFiles_eq fs i.specFiles (fun f hf => (hpres f hf).1)
  have h2 := insertSpecRows_eq fs (H.contentHash (String.join (contentsOf fs i.specFiles)))
    db i.specFiles (fun f hf => (hpres f hf).2)
  simp [setInput, h1, h2, except_bind_ok, except_bind_error]

theorem setInput_ok_hash {H : HashModel} {fs : FS} {db : DB} {i : Input} {r : SetupResult}
    (h : setInput H fs db i = .ok r) :
    specificationHash H fs i.specFiles = some r.hash := by
  unfold setInput at h
  cases hr : readFiles fs i.specFiles with
  | error e => rw [hr] at h; simp [except_bind_ok, except_bind_error] at h
  | ok cs =>
    rw [hr] at h
    simp only [except_bind_ok, except_bind_error] at h
    cases hins : insertSpecRows fs (H.contentHash (String.join cs)) db i.specFiles with
    | error e => rw [hins] at h; simp [except_bind_ok, except_bind_error] at h
    | ok db2 =>
      rw [hins] at h
      simp only [except_bind_ok, Except.ok.injEq] at h
      subst h
      simp [specificationHash, hr]

theorem checkRows_eq_of_present (fs : FS) (rows : List Row) (acc : Bool)
    (hpres : ∀ row ∈ rows, (statMtime fs row.path).isSome) :
    checkRows fs rows acc =
      .ok (acc && rows.all
        (fun row => row.lastWriteTime == (statMtime fs row.path).getD 0)) := by
  induction rows generalizing acc with
  | nil => simp [checkRows]
  | cons row rest ih =>
    obtain ⟨t, ht⟩ := Option.isSome_iff_exists.mp (hpres row (by simp))
    have ih2 := ih (acc && (row.lastWriteTime == t)) (fun g hg => hpres g (by simp [hg]))
    simp [checkRows, statMtimeE, ht, ih2, except_bind_ok, except_bind_error, Bool.and_assoc]

theorem checkRows_append (fs : FS) (l1 l2 : List Row) (acc : Bool) :
    checkRows fs (l1 ++ l2) acc =
      match checkRows fs l1 acc with
      | .ok b => checkRows fs l2 b
      | .error e => .error e := by
  induction l1 generalizing acc with
  | nil => simp [checkRows]
  | cons row rest ih =>
    simp only [List.cons_append, checkRows]
    cases ht : statMtimeE fs row.path with
    | error e => simp [except_bind_ok, except_bind_error, ht]
    | ok t => simp [except_bind_ok, except_bind_error, ht, ih]

theorem checkRows_false (fs : FS) (rows : List Row) :
    checkRows fs rows false = .ok false ∨ ∃ e, checkRows fs rows false = .error e := by
  induction rows with
  | nil => left; rfl
  | cons row rest ih =>
    cases ht : statMtimeE fs row.path with
    | error e => right; exact ⟨e, by simp [checkRows, except_bind_ok, except_bind_error, ht]⟩
    | ok t => simpa [checkRows, except_bind_ok, except_bind_error, ht] using ih

theorem mem_mkRows {fs : FS} {hv n : Nat} {files : List SwPath} {row : Row}
    (h : row ∈ mkRows fs hv n files) :
    row.hash = hv ∧ row.path ∈ files ∧
      row.lastWriteTime = (statMtime fs row.path).getD 0 := by
  induction files generalizing n with
  | nil => simp [mkRows] at h
  | cons f rest ih =>
    simp only [mkRows, List.mem_cons] at h
    rcases h with h | h
    · subst h; exact ⟨rfl, by simp, rfl⟩
    · obtain ⟨h1, h2, h3⟩ := ih h
      exact ⟨h1, by simp [h2], h3⟩

theorem mkRows_map_path (fs : FS) (hv n : Nat) (files : List SwPath) :
    (mkRows fs hv n files).map (fun row => row.path) = files := by
  induction files generalizing n with
  | nil => rfl
  | cons f rest ih => simp [mkRows, ih]

theorem rowsWithPath_mkRows_ne_nil {fs : FS} {hv n : Nat} {files : List SwPath} {p : SwPath}
    (h : p ∈ files) : rowsWithPath (mkRows fs hv n files) p ≠ [] := by
  intro hnil
  rw [rowsWithPath, List.filter_eq_nil_iff] at hnil
  have hmem : p ∈ (mkRows fs hv n files).map (fun row => row.path) := by
    rw [mkRows_map_path]; exact h
  obtain ⟨row, hrow, hpath⟩ := List.mem_map.mp hmem
  exact hnil row hrow (by simp [hpath])

theorem rowsWithHash_mkRows_self (fs : FS) (hv n : Nat) (files : List SwPath) :
    rowsWithHash (mkRows fs hv n files) hv = mkRows fs hv n files := by
  rw [rowsWithHash, List.filter_eq_self]
  intro row hrow
  simp [(mem_mkRows hrow).1]

theorem setupInput_nondir {H : HashModel} {fs : FS} {db : DB} {i : Input}
    (hty : ¬i.itype = InputType.directory) :
    setupInput H fs db i =
      (match rowsWithPath db i.path with
      | [] => setInput H fs db i
      | r :: _ => do
          let acc ← checkRows fs (rowsWithHash db r.hash) true
          if acc then .ok ⟨r.hash, db, false⟩ else setInput H fs db i) := by
  simp [setupInput, hty]

theorem setupInput_nil_q {H : HashModel} {fs : FS} {db : DB} {i : Input}
    (hty : ¬i.itype = InputType.directory) (hq : rowsWithPath db i.path = []) :
    setupInput H fs db i = setInput H fs db i := by
  rw [setupInput_nondir hty, hq]

theorem setupInput_cons_check {H : HashModel} {fs : FS} {db : DB} {i : Input}
    {r : Row} {rest : List Row} {b : Bool}
    (hty : ¬i.itype = InputType.directory) (hq : rowsWithPath db i.path = r :: rest)
    (hc : checkRows fs (rowsWithHash db r.hash) true = .ok b) :
    setupInput H fs db i =
      if b then .ok ⟨r.hash, db, false⟩ else setInput H fs db i := by
  rw [setupInput_nondir hty, hq]
  simp [hc, except_bind_ok, except_bind_error]

theorem setupInput_cons_error {H : HashModel} {fs : FS} {db : DB} {i : Input}
    {r : Row} {rest : List Row} {e : DbError}
    (hty : ¬i.itype = InputType.directory) (hq : rowsWithPath db i.path = r :: rest)
    (hc : checkRows fs (rowsWithHash db r.hash) true = .error e) :
    setupInput H fs db i = .error e := by
  rw [setupInput_nondir hty, hq]
  simp [hc, except_bind_ok, except_bind_error]

theorem rowsWithPath_append (a b : DB) (p : SwPath) :
    rowsWithPath (a ++ b) p = rowsWithPath a p ++ rowsWithPath b p := by
  simp [rowsWithPath]

theorem rowsWithHash_append (a b : DB) (h : Nat) :
    rowsWithHash (a ++ b) h = rowsWithHash a h ++ rowsWithHash b h := by
  simp [rowsWithHash]

theorem insertSpecRows_ok_shape {fs : FS} {hv : Nat} {db db2 : DB} {files : List SwPath}
    (h : insertSpecRows fs hv db files = .ok db2) :
    db2 = db ++ mkRows fs hv db.length files := by
  induction files generalizing db with
  | nil =>
    simp only [insertSpecRows, Except.ok.injEq] at h
    simp [mkRows, h.symm]
  | cons f rest ih =>
    simp only [insertSpecRows] at h
    cases ht : statMtimeE fs f with
    | error e => rw [ht] at h; simp [except_bind_error] at h
    | ok t =>
      rw [ht] at h
      simp only [except_bind_ok] at h
      have hmt : statMtime fs f = some t := statMtimeE_ok.mp ht
      have hih := ih h
      simp only [dbInsert, List.length_append, List.length_cons, List.length_nil] at hih
      simp [mkRows, hmt, hih, List.append_assoc]

theorem setInput_ok_shape {H : HashModel} {fs : FS} {db : DB} {i : Input} {r : SetupResult}
    (h : setInput H fs db i = .ok r) :
    r.db = db ++ mkRows fs r.hash db.length i.specFiles ∧ r.recomputed = true := by
  unfold setInput at h
  cases hr : readFiles fs i.specFiles with
  | error e => rw [hr] at h; simp [except_bind_error] at h
  | ok cs =>
    rw [hr] at h
    simp only [except_bind_ok] at h
    cases hins : insertSpecRows fs (H.contentHash (String.join cs)) db i.specFiles with
    | error e => rw [hins] at h; simp [except_bind_error] at h
    | ok db2 =>
      rw [hins] at h
      simp only [except_bind_ok, Except.ok.injEq] at h
      subst h
      exact ⟨insertSpecRows_ok_shape hins, rfl⟩

theorem mem_rowsWithPath {db : DB} {p : SwPath} {r : Row} :
    r ∈ rowsWithPath db p ↔ r ∈ db ∧ r.path = p := by
  simp [rowsWithPath, List.mem_filter]

theorem mem_rowsWithHash {db : DB} {h : Nat} {r : Row} :
    r ∈ rowsWithHash db h ↔ r ∈ db ∧ r.hash = h := by
  simp [rowsWithHash, List.mem_filter]

theorem setupInput_hash_det {H : HashModel} {fs : FS} {db : DB} {i : Input} {r1 r2 : SetupResult}
    (h1 : setupInput H fs db i = .ok r1) (h2 : setupInput H fs r1.db i = .ok r2) :
    r2.hash = r1.hash := by
  by_cases hty : i.itype = InputType.directory
  · simp only [setupInput, hty, if_true, Except.ok.injEq] at h1 h2
    subst h1
    subst h2
    rfl
  · cases hq1 : rowsWithPath db i.path with
    | nil =>
      rw [setupInput_nil_q hty hq1] at h1
      have hs1 := setInput_ok_hash h1
      obtain ⟨hdb1, _⟩ := setInput_ok_shape h1
      cases hq2 : rowsWithPath r1.db i.path with
      | nil =>
        rw [setupInput_nil_q hty hq2] at h2
        have hs2 := setInput_ok_hash h2
        rw [hs1] at hs2
        exact (Option.some_inj.mp hs2).symm
      | cons r rest =>
        have hr_mem : r ∈ rowsWithPath r1.db i.path := by
          rw [hq2]; exact List.mem_cons_self r rest
        have hr_db : r ∈ r1.db := (mem_rowsWithPath.mp hr_mem).1
        have hr_pred : r.path = i.path := (mem_rowsWithPath.mp hr_mem).2
        have hr_mk : r ∈ mkRows fs r1.hash db.length i.specFiles := by
          rw [hdb1] at hr_db
          rcases List.mem_append.mp hr_db with hmem | hmem
          · exfalso
            have hfull : r ∈ rowsWithPath db i.path := mem_rowsWithPath.mpr ⟨hmem, hr_pred⟩
            rw [hq1] at hfull
            simp at hfull
          · exact hmem
        have hrhash : r.hash = r1.hash := (mem_mkRows hr_mk).1
        cases hc : checkRows fs (rowsWithHash r1.db r.hash) true with
        | error e => rw [setupInput_cons_error hty hq2 hc] at h2; cases h2
        | ok b =>
          rw [setupInput_cons_check hty hq2 hc] at h2
          cases b with
          | true =>
            simp only [eq_self_iff_true, if_true, Except.ok.injEq] at h2
            rw [← h2, hrhash]
          | false =>
            simp only [Bool.false_eq_true, if_false] at h2
            have hs2 := setInput_ok_hash h2
            rw [hs1] at hs2
            exact (Option.some_inj.mp hs2).symm
    | cons r rest =>
      cases hc1 : checkRows fs (rowsWithHash db r.hash) true with
      | error e => rw [setupInput_cons_error hty hq1 hc1] at h1; cases h1
      | ok b1 =>
        rw [setupInput_cons_check hty hq1 hc1] at h1
        cases b1 with
        | true =>
          simp only [eq_self_iff_true, if_true, Except.ok.injEq] at h1
          have hdb : r1.db = db := by rw [← h1]
          rw [hdb] at h2
          rw [setupInput_cons_check hty hq1 hc1] at h2
          simp only [eq_self_iff_true, if_true, Except.ok.injEq] at h2
          rw [← h2, ← h1]
        | false =>
          simp only [Bool.false_eq_true, if_false] at h1
          have hs1 := setInput_ok_hash h1
          obtain ⟨hdb1, _⟩ := setInput_ok_shape h1
          have hq2 : rowsWithPath r1.db i.path =
              r :: (rest ++ rowsWithPath (mkRows fs r1.hash db.length i.specFiles) i.path) := by
            rw [hdb1, rowsWithPath_append, hq1]
            simp
          have hsplit : rowsWithHash r1.db r.hash =
              rowsWithHash db r.hash ++
                rowsWithHash (mkRows fs r1.hash db.length i.specFiles) r.hash := by
            rw [hdb1, rowsWithHash_append]
          have hc2eq : checkRows fs (rowsWithHash r1.db r.hash) true =
              checkRows fs (rowsWithHash (mkRows fs r1.hash db.length i.specFiles) r.hash)
                false := by
            rw [hsplit, checkRows_append, hc1]
          rcases checkRows_false fs
              (rowsWithHash (mkRows fs r1.hash db.length i.specFiles) r.hash) with hok | ⟨e, herr⟩
          · rw [setupInput_cons_check hty hq2 (hc2eq.trans hok)] at h2
            simp only [Bool.false_eq_true, if_false] at h2
            have hs2 := setInput_ok_hash h2
            rw [hs1] at hs2
            exact (Option.some_inj.mp hs2).symm
          · rw [setupInput_cons_error hty hq2 (hc2eq.trans herr)] at h2
            cases h2

/-- C1 (amended): for a non-directory input, setup_input looks up the rows
whose path equals the input's path; if rows are present and every row
sharing the first row's stored hash re-stats to its stored mtime, the
stored hash is adopted with the database unchanged and nothing recomputed;
otherwise the specification hash over the concatenated file contents is
recomputed, one NEW row per constituent file is APPENDED (each carrying
that same hash; pre-existing rows for those paths stay in place, there is
no upsert), and the input's hash is set to the recomputed value. -/
theorem c1_setupInput (H : HashModel) (fs : FS) (db : DB) (i : Input)
    (hty : ¬i.itype = InputType.directory)
    (hpres : ∀ f ∈ i.specFiles, (readFile fs f).isSome ∧ (statMtime fs f).isSome) :
    (∀ r rest, rowsWithPath db i.path = r :: rest →
      (∀ row ∈ rowsWithHash db r.hash, statMtime fs row.path = some row.lastWriteTime) →
      setupInput H fs db i = .ok ⟨r.hash, db, false⟩)
  ∧ (rowsWithPath db i.path = [] →
      ∃ hv, specificationHash H fs i.specFiles = some hv ∧
        setupInput H fs db i = .ok ⟨hv, db ++ mkRows fs hv db.length i.specFiles, true⟩)
  ∧ (∀ r rest, rowsWithPath db i.path = r :: rest →
      (∀ row ∈ rowsWithHash db r.hash, (statMtime fs row.path).isSome) →
      (∃ row ∈ rowsWithHash db r.hash, ¬statMtime fs row.path = some row.lastWriteTime) →
      ∃ hv, specificationHash H fs i.specFiles = some hv ∧
        setupInput H fs db i = .ok ⟨hv, db ++ mkRows fs hv db.length i.specFiles, true⟩) := by
  refine ⟨?_, ?_, ?_⟩
  · intro r rest hq hmatch
    have hpres2 : ∀ row ∈ rowsWithHash db r.hash, (statMtime fs row.path).isSome := by
      intro row hrow
      rw [hmatch row hrow]
      rfl
    have hall : (rowsWithHash db r.hash).all
        (fun row => row.lastWriteTime == (statMtime fs row.path).getD 0) = true := by
      rw [List.all_eq_true]
      intro row hrow
      rw [hmatch row hrow]
      simp
    have hc := checkRows_eq_of_present fs (rowsWithHash db r.hash) true hpres2
    rw [hall] at hc
    simp only [Bool.and_true] at hc
    rw [setupInput_cons_check hty hq hc]
    simp
  · intro hq
    refine ⟨H.contentHash (String.join (contentsOf fs i.specFiles)),
      specificationHash_eq H fs i.specFiles (fun f hf => (hpres f hf).1), ?_⟩
    rw [setupInput_nil_q hty hq, setInput_eq H fs db i hpres]
  · intro r rest hq hsome ⟨row, hrow, hmis⟩
    have hall : (rowsWithHash db r.hash).all
        (fun row => row.lastWriteTime == (statMtime fs row.path).getD 0) = false := by
      rcases hb : (rowsWithHash db r.hash).all
          (fun row => row.lastWriteTime == (statMtime fs row.path).getD 0) with _ | _
      · rfl
      · exfalso
        have := List.all_eq_true.mp hb row hrow
        obtain ⟨t, ht⟩ := Option.isSome_iff_exists.mp (hsome row hrow)
        rw [ht] at this
        simp only [Option.getD_some, beq_iff_eq] at this
        exact hmis (by rw [ht, this])
    have hc := checkRows_eq_of_present fs (rowsWithHash db r.hash) true hsome
    rw [hall] at hc
    simp only [Bool.and_false] at hc
    refine ⟨H.contentHash (String.join (contentsOf fs i.specFiles)),
      specificationHash_eq H fs i.specFiles (fun f hf => (hpres f hf).1), ?_⟩
    rw [setupInput_cons_check hty hq hc]
    simp only [Bool.false_eq_true, if_false]
    rw [setInput_eq H fs db i hpres]

/-- Witness for C1: a cache hit adopts the stored hash. -/
theorem c1_setupInput_witness :
    setupInput demoHash [⟨"sw.cpp", "abc", 5⟩] [⟨0, "sw.cpp", 3, 5⟩]
        ⟨0, "sw.cpp", InputType.specificationFile, ["sw.cpp"]⟩ =
      .ok ⟨3, [⟨0, "sw.cpp", 3, 5⟩], false⟩ :=
  (c1_setupInput demoHash [⟨"sw.cpp", "abc", 5⟩] [⟨0, "sw.cpp", 3, 5⟩]
      ⟨0, "sw.cpp", InputType.specificationFile, ["sw.cpp"]⟩ (by decide) (by decide)).1
    ⟨0, "sw.cpp", 3, 5⟩ [] rfl (by decide)

/-- C1 counterexample: on a mismatch, set_input INSERTS instead of
upserting; a constituent file that already had a row ends up with two
rows, so the table does not hold exactly one row per constituent file. -/
theorem c1_counterexample :
    setupInput demoHash [⟨"sw.cpp", "bb", 2⟩] [⟨0, "sw.cpp", 1, 1⟩]
        ⟨0, "sw.cpp", InputType.specificationFile, ["sw.cpp"]⟩ =
      .ok ⟨2, [⟨0, "sw.cpp", 1, 1⟩, ⟨1, "sw.cpp", 2, 2⟩], true⟩ ∧
    (rowsWithPath [⟨0, "sw.cpp", 1, 1⟩, ⟨1, "sw.cpp", 2, 2⟩] "sw.cpp").length = 2 ∧
    (rowsWithPath [⟨0, "sw.cpp", 1, 1⟩, ⟨1, "sw.cpp", 2, 2⟩] "sw.cpp").length ≠ 1 := by
  refine ⟨rfl, rfl, by decide⟩

theorem setupInput_adopt_mkRows (H : HashModel) (fs : FS) (i : Input) (hv : Nat)
    (hty : ¬i.itype = InputType.directory) (hmem : i.path ∈ i.specFiles)
    (hpres : ∀ f ∈ i.specFiles, (statMtime fs f).isSome) :
    setupInput H fs (mkRows fs hv 0 i.specFiles) i =
      .ok ⟨hv, mkRows fs hv 0 i.specFiles, false⟩ := by
  cases hq2 : rowsWithPath (mkRows fs hv 0 i.specFiles) i.path with
  | nil => exact absurd hq2 (rowsWithPath_mkRows_ne_nil hmem)
  | cons r rest =>
    have hr_in : r ∈ rowsWithPath (mkRows fs hv 0 i.specFiles) i.path := by
      rw [hq2]; exact List.mem_cons_self r rest
    have hr_mk : r ∈ mkRows fs hv 0 i.specFiles := (mem_rowsWithPath.mp hr_in).1
    have hrhash : r.hash = hv := (mem_mkRows hr_mk).1
    have hpres2 : ∀ row ∈ rowsWithHash (mkRows fs hv 0 i.specFiles) r.hash,
        (statMtime fs row.path).isSome := by
      intro row hrow
      exact hpres row.path (mem_mkRows (mem_rowsWithHash.mp hrow).1).2.1
    have hall : (rowsWithHash (mkRows fs hv 0 i.specFiles) r.hash).all
        (fun row => row.lastWriteTime == (statMtime fs row.path).getD 0) = true := by
      rw [List.all_eq_true]
      intro row hrow
      rw [(mem_mkRows (mem_rowsWithHash.mp hrow).1).2.2]
      simp
    have hc := checkRows_eq_of_present fs
      (rowsWithHash (mkRows fs hv 0 i.specFiles) r.hash) true hpres2
    rw [hall] at hc
    simp only [Bool.and_true] at hc
    rw [setupInput_cons_check hty hq2 hc]
    simp [hrhash]

/-- C2 (amended): consecutive setup_input runs with unchanged files agree
on the hash; and when the first run starts from an empty database the
second run adopts the stored hash without re-reading or re-hashing any
file contents (recomputed = false). -/
theorem c2_rerun (H : HashModel) (fs : FS) (i : Input)
    (hty : ¬i.itype = InputType.directory)
    (hmem : i.path ∈ i.specFiles)
    (hpres : ∀ f ∈ i.specFiles, (readFile fs f).isSome ∧ (statMtime fs f).isSome) :
    (∀ (db : DB) (r1 r2 : SetupResult),
        setupInput H fs db i = .ok r1 → setupInput H fs r1.db i = .ok r2 →
        r2.hash = r1.hash)
  ∧ (∃ hv, setupInput H fs [] i = .ok ⟨hv, mkRows fs hv 0 i.specFiles, true⟩ ∧
      setupInput H fs (mkRows fs hv 0 i.specFiles) i =
        .ok ⟨hv, mkRows fs hv 0 i.specFiles, false⟩) := by
  constructor
  · intro db r1 r2 h1 h2
    exact setupInput_hash_det h1 h2
  · refine ⟨H.contentHash (String.join (contentsOf fs i.specFiles)), ?_, ?_⟩
    · have hq0 : rowsWithPath ([] : DB) i.path = [] := rfl
      have h := setInput_eq H fs [] i hpres
      rw [setupInput_nil_q hty hq0, h]
      simp
    · exact setupInput_adopt_mkRows H fs i _ hty hmem (fun f hf => (hpres f hf).2)

/-- Witness for C2 on a concrete one-file specification. -/
theorem c2_rerun_witness :
    ∃ hv, setupInput demoHash [⟨"sw.cpp", "abc", 5⟩] []
        ⟨0, "sw.cpp", InputType.specificationFile, ["sw.cpp"]⟩ =
        .ok ⟨hv, mkRows [⟨"sw.cpp", "abc", 5⟩] hv 0 ["sw.cpp"], true⟩ ∧
      setupInput demoHash [⟨"sw.cpp", "abc", 5⟩]
          (mkRows [⟨"sw.cpp", "abc", 5⟩] hv 0 ["sw.cpp"])
          ⟨0, "sw.cpp", InputType.specificationFile, ["sw.cpp"]⟩ =
        .ok ⟨hv, mkRows [⟨"sw.cpp", "abc", 5⟩] hv 0 ["sw.cpp"], false⟩ :=
  (c2_rerun demoHash [⟨"sw.cpp", "abc", 5⟩]
    ⟨0, "sw.cpp", InputType.specificationFile, ["sw.cpp"]⟩
    (by decide) (by decide) (by decide)).2

/-- C2 counterexample: after one content change, the stale first row keeps
every later run on the recompute path: two consecutive runs with identical
file contents and mtimes both succeed with the same hash, yet the second
run recomputes (re-reads and re-hashes) instead of adopting the stored
hash. -/
theorem c2_counterexample :
    setupInput demoHash [⟨"sw.cpp", "bb", 2⟩]
        [⟨0, "sw.cpp", 1, 1⟩, ⟨1, "sw.cpp", 2, 2⟩]
        ⟨0, "sw.cpp", InputType.specificationFile, ["sw.cpp"]⟩ =
      .ok ⟨2, [⟨0, "sw.cpp", 1, 1⟩, ⟨1, "sw.cpp", 2, 2⟩, ⟨2, "sw.cpp", 2, 2⟩], true⟩ ∧
    setupInput demoHash [⟨"sw.cpp", "bb", 2⟩]
        [⟨0, "sw.cpp", 1, 1⟩, ⟨1, "sw.cpp", 2, 2⟩, ⟨2, "sw.cpp", 2, 2⟩]
        ⟨0, "sw.cpp", InputType.specificationFile, ["sw.cpp"]⟩ =
      .ok ⟨2, [⟨0, "sw.cpp", 1, 1⟩, ⟨1, "sw.cpp", 2, 2⟩, ⟨2, "sw.cpp", 2, 2⟩,
        ⟨3, "sw.cpp", 2, 2⟩], true⟩ :=
  ⟨rfl, rfl⟩

theorem lookupDriver_insertOrAssign (ds : List (String × DriverId)) (k : String) (v : DriverId) :
    lookupDriver (insertOrAssign ds k v) k = some v := by
  induction ds with
  | nil => simp [insertOrAssign, lookupDriver]
  | cons hd tl ih =>
    obtain ⟨k2, v2⟩ := hd
    by_cases h : k2 = k
    · simp [insertOrAssign, h, lookupDriver]
    · simpa [insertOrAssign, h, lookupDriver] using ih

theorem poolStep_inv {N : Nat} {s s2 : PoolState} {e : PoolEvent}
    (hinv : poolInv N s) (hstep : poolStep s e = some s2) : poolInv N s2 := by
  obtain ⟨h0, hsum⟩ := hinv
  cases e with
  | acquire =>
    simp only [poolStep] at hstep
    split at hstep
    · rename_i h1
      exact absurd h1 (by omega)
    · split at hstep
      · rename_i h1 h2
        cases hstep
        constructor
        · show 0 ≤ s.n - 1
          omega
        · show s.n - 1 + ((s.holders + 1 : Nat) : Int) = (N : Int)
          omega
      · cases hstep
  | release =>
    simp only [poolStep] at hstep
    split at hstep
    · cases hstep
    · split at hstep
      · rename_i h1 h2
        exact absurd h2 (by omega)
      · rename_i h1 h2
        cases hstep
        constructor
        · show 0 ≤ s.n + 1
          omega
        · show s.n + 1 + ((s.holders - 1 : Nat) : Int) = (N : Int)
          omega

theorem runPool_inv {N : Nat} {tr : List PoolEvent} {s s2 : PoolState}
    (hinv : poolInv N s) (hrun : runPool s tr = some s2) : poolInv N s2 := by
  induction tr generalizing s with
  | nil =>
    unfold runPool at hrun
    cases hrun
    exact hinv
  | cons e es ih =>
    unfold runPool at hrun
    cases hstep : poolStep s e with
    | none => rw [hstep] at hrun; cases hrun
    | some s1 =>
      rw [hstep] at hrun
      exact ih (poolStep_inv hinv hstep) hrun

/-- C4: a pool of capacity N has at most N simultaneous holders in every
schedule (N = 1 serializes); acquire is enabled only while the counter is
positive and decrements it, release increments it; capacity -1 means
unlimited, acquire and release are immediate no-ops on the counter. -/
theorem c4_resourcePool :
    (∀ (N : Nat) (tr : List PoolEvent) (s2 : PoolState),
        1 ≤ N → runPool ⟨(N : Int), 0⟩ tr = some s2 → s2.holders ≤ N)
  ∧ (∀ (tr : List PoolEvent) (s2 : PoolState),
        runPool ⟨(1 : Int), 0⟩ tr = some s2 → s2.holders ≤ 1)
  ∧ (∀ s : PoolState, 0 < s.n →
        poolStep s .acquire = some ⟨s.n - 1, s.holders + 1⟩)
  ∧ (∀ s : PoolState, s.n ≠ -1 → s.n ≤ 0 → poolStep s .acquire = none)
  ∧ (∀ s : PoolState, s.n ≠ -1 → 0 < s.holders →
        poolStep s .release = some ⟨s.n + 1, s.holders - 1⟩)
  ∧ (∀ k : Nat, poolStep ⟨-1, k⟩ .acquire = some ⟨-1, k + 1⟩)
  ∧ (∀ k : Nat, 0 < k → poolStep ⟨-1, k⟩ .release = some ⟨-1, k - 1⟩) := by
  refine ⟨?_, ?_, ?_, ?_, ?_, ?_, ?_⟩
  · intro N tr s2 _ hrun
    have hinv : poolInv N ⟨(N : Int), 0⟩ := ⟨by simp, by simp⟩
    obtain ⟨h0, hsum⟩ := runPool_inv hinv hrun
    omega
  · intro tr s2 hrun
    have hinv : poolInv 1 ⟨(1 : Int), 0⟩ := ⟨by simp, by simp⟩
    obtain ⟨h0, hsum⟩ := runPool_inv hinv hrun
    omega
  · intro s h
    have h1 : ¬s.n = -1 := by omega
    simp [poolStep, h1, h]
  · intro s h1 h2
    have h3 : ¬(0 < s.n) := by omega
    simp [poolStep, h1, h3]
  · intro s h1 h2
    have h3 : ¬s.holders = 0 := by omega
    simp [poolStep, h1, h3]
  · intro k
    simp [poolStep]
  · intro k hk
    have h3 : ¬k = 0 := by omega
    simp [poolStep, h3]

/-- Witness for C4 at capacity 2 with a schedule of two acquires. -/
theorem c4_resourcePool_witness :
    runPool ⟨2, 0⟩ [.acquire, .acquire] = some ⟨0, 2⟩ ∧
    (2 : Nat) ≤ 2 ∧
    poolStep ⟨-1, 0⟩ .acquire = some ⟨-1, 1⟩ :=
  ⟨rfl, c4_resourcePool.1 2 [.acquire, .acquire] ⟨0, 2⟩ (by decide) rfl,
    c4_resourcePool.2.2.2.2.2.1 0⟩

/-- C5: installing an already-installed package returns the corresponding
LocalPackage and performs no effect (no removal, no download, no database
write); only a missing package materializes. -/
theorem c5_install (s : StorageState) (pkg : String) :
    (isPackageInstalled s pkg = true → install s pkg = (⟨pkg⟩, s, []))
  ∧ (isPackageInstalled s pkg = false →
      install s pkg =
        (⟨pkg⟩, ⟨s.installed ++ [pkg]⟩,
          [.removeDir pkg, .downloadArchive pkg, .dbInstallPackage pkg])) := by
  constructor <;> intro h <;> simp [install, h]

/-- Witness for C5 on a one-package store. -/
theorem c5_install_witness :
    install ⟨["org.sw.demo.zlib"]⟩ "org.sw.demo.zlib" =
      (⟨"org.sw.demo.zlib"⟩, ⟨["org.sw.demo.zlib"]⟩, []) :=
  (c5_install ⟨["org.sw.demo.zlib"]⟩ "org.sw.demo.zlib").1 rfl

/-- C7: a directory-type input gets the stable hash of its path and the
database is neither consulted nor modified. -/
theorem c7_directory_input (H : HashModel) (fs : FS) (db : DB) (i : Input)
    (hty : i.itype = InputType.directory) :
    setupInput H fs db i = .ok ⟨H.pathHash i.path, db, false⟩ := by
  simp [setupInput, hty]

/-- Witness for C7 on a concrete directory input. -/
theorem c7_directory_input_witness :
    setupInput demoHash [] [⟨0, "other", 1, 2⟩] ⟨0, "proj", InputType.directory, []⟩ =
      .ok ⟨4, [⟨0, "other", 1, 2⟩], false⟩ :=
  c7_directory_input demoHash [] [⟨0, "other", 1, 2⟩] ⟨0, "proj", InputType.directory, []⟩ rfl

/-- C8: registerDriver stores the driver under the caller-supplied key
without consulting the driver's own getPackageId; createSwContext
registers the cpp driver under org.sw.sw.driver.cpp-0.3.1 while
Driver::getPackageId reports org.sw.sw.driver.cpp-0.3.0, so the
registered key differs from the self-reported id and the registry has no
entry under the self-reported id. -/
theorem c8_registerDriver :
    (∀ (ds : List (String × DriverId)) (k : String) (v : DriverId),
        lookupDriver (registerDriver ds k v) k = some v)
  ∧ createSwContextDrivers = [("org.sw.sw.driver.cpp-0.3.1", cppDriver)]
  ∧ "org.sw.sw.driver.cpp-0.3.1" ≠ driverGetPackageId
  ∧ lookupDriver createSwContextDrivers driverGetPackageId = none := by
  refine ⟨fun ds k v => lookupDriver_insertOrAssign ds k v, rfl, by decide, by decide⟩

theorem lookupEp_append_none (l : List (String × Nat)) (k : String) (v : Nat)
    (h : lookupEp l k = none) : lookupEp (l ++ [(k, v)]) k = some v := by
  unfold lookupEp at h ⊢
  rw [List.find?_append]
  rcases Option.map_eq_none'.mp h with hf
  simp [hf]

theorem lookupEpGn_append_none (l : List (Int × Nat)) (k : Int) (v : Nat)
    (h : lookupEpGn l k = none) : lookupEpGn (l ++ [(k, v)]) k = some v := by
  unfold lookupEpGn at h ⊢
  rw [List.find?_append]
  rcases Option.map_eq_none'.mp h with hf
  simp [hf]

theorem setEntryPointGn_entryPoints {st st2 : EpState} {gn : Int} {e : Nat}
    (h : setEntryPointGn st gn e = .ok st2) : st2.entryPoints = st.entryPoints := by
  unfold setEntryPointGn at h
  split at h
  · cases h; rfl
  · split at h
    · split at h
      · cases h
      · cases h; rfl
    · cases h; rfl

theorem setEntryPointGn_idem {st st2 : EpState} {gn : Int} {e : Nat}
    (h : setEntryPointGn st gn e = .ok st2) : setEntryPointGn st2 gn e = .ok st2 := by
  unfold setEntryPointGn at h ⊢
  split at h
  · rename_i h1
    cases h
    rw [if_pos h1]
  · rename_i h1
    rw [if_neg h1]
    split at h
    · rename_i e0 hl
      split at h
      · cases h
      · rename_i h2
        cases h
        have h2e : e0 = e := by simpa using h2
        subst h2e
        rw [hl]
        simp
    · rename_i hl
      cases h
      have h2 : lookupEpGn (st.entryPointsByGroupNumber ++ [(gn, e)]) gn = some e :=
        lookupEpGn_append_none _ _ _ hl
      rw [h2]
      simp

/-- C10: setEntryPoint is idempotent for a repeated identical entry point
(package or group number), errors on a different entry point for an
already-registered package or group number, and silently ignores a null
entry point and group number 0. -/
theorem c10_setEntryPoint :
    (∀ (st : EpState) (p : LocalPkg), setEntryPointPkg st p none = .ok st)
  ∧ (∀ (st : EpState) (e : Nat), setEntryPointGn st 0 e = .ok st)
  ∧ (∀ (st st2 : EpState) (p : LocalPkg) (e : Nat),
        setEntryPointPkg st p (some e) = .ok st2 →
        setEntryPointPkg st2 p (some e) = .ok st2)
  ∧ (∀ (st st2 : EpState) (gn : Int) (e : Nat),
        setEntryPointGn st gn e = .ok st2 →
        setEntryPointGn st2 gn e = .ok st2)
  ∧ (∀ (st : EpState) (p : LocalPkg) (e0 e : Nat),
        lookupEp st.entryPoints p.id = some e0 → e0 ≠ e →
        setEntryPointPkg st p (some e) = .error (.settingTwicePackage p.id))
  ∧ (∀ (st : EpState) (gn : Int) (e0 e : Nat), gn ≠ 0 →
        lookupEpGn st.entryPointsByGroupNumber gn = some e0 → e0 ≠ e →
        setEntryPointGn st gn e = .error (.settingTwiceGroupNumber gn)) := by
  refine ⟨fun st p => rfl, fun st e => rfl, ?_, fun st st2 gn e h => setEntryPointGn_idem h, ?_, ?_⟩
  · intro st st2 p e h
    unfold setEntryPointPkg at h ⊢
    simp only [ne_eq] at h ⊢
    split at h
    · rename_i e0 hl
      split at h
      · cases h
      · rename_i h2
        cases h
        have h2e : e0 = e := by simpa using h2
        subst h2e
        rw [hl]
        simp
    · rename_i hl
      have hep : st2.entryPoints = st.entryPoints ++ [(p.id, e)] := by
        split at h
        · cases h; rfl
        · exact setEntryPointGn_entryPoints h
      have hl2 : lookupEp st2.entryPoints p.id = some e := by
        rw [hep]; exact lookupEp_append_none _ _ _ hl
      rw [hl2]
      simp
  · intro st p e0 e hl hne
    unfold setEntryPointPkg
    rw [hl]
    simp only [ne_eq]
    rw [if_pos (by simpa using hne)]
  · intro st gn e0 e hgn hl hne
    unfold setEntryPointGn
    rw [if_neg hgn, hl]
    simp only [ne_eq]
    rw [if_pos (by simpa using hne)]

/-- Witness for C10 on concrete states. -/
theorem c10_setEntryPoint_witness :
    setEntryPointPkg ⟨[], []⟩ ⟨"org.sw.demo.a", false, 7⟩ none = .ok ⟨[], []⟩ ∧
    setEntryPointGn ⟨[], []⟩ 0 1 = .ok ⟨[], []⟩ ∧
    setEntryPointPkg ⟨[("org.sw.demo.a", 1)], [(7, 1)]⟩ ⟨"org.sw.demo.a", false, 7⟩ (some 1) =
      .ok ⟨[("org.sw.demo.a", 1)], [(7, 1)]⟩ ∧
    setEntryPointGn ⟨[], [(7, 1)]⟩ 7 1 = .ok ⟨[], [(7, 1)]⟩ ∧
    setEntryPointPkg ⟨[("org.sw.demo.a", 1)], [(7, 1)]⟩ ⟨"org.sw.demo.a", false, 7⟩ (some 2) =
      .error (.settingTwicePackage "org.sw.demo.a") ∧
    setEntryPointGn ⟨[], [(7, 1)]⟩ 7 2 = .error (.settingTwiceGroupNumber 7) := by
  refine ⟨c10_setEntryPoint.1 _ _, c10_setEntryPoint.2.1 _ _, ?_, ?_, ?_, ?_⟩
  · exact c10_setEntryPoint.2.2.1 ⟨[], []⟩ _ ⟨"org.sw.demo.a", false, 7⟩ 1 rfl
  · exact c10_setEntryPoint.2.2.2.1 ⟨[], []⟩ _ 7 1 rfl
  · exact c10_setEntryPoint.2.2.2.2.1 _ ⟨"org.sw.demo.a", false, 7⟩ 1 2 rfl (by decide)
  · exact c10_setEntryPoint.2.2.2.2.2 _ 7 1 2 (by decide) rfl (by decide)

theorem find?_append_some {α : Type} {p : α → Bool} {l1 l2 : List α} {a : α}
    (h : l1.find? p = some a) : (l1 ++ l2).find? p = some a := by
  rw [List.find?_append, h]
  rfl

theorem lookupInput_append {m : InputMap} {h0 : Nat} {v : Input} (l : InputMap)
    (hl : lookupInput m h0 = some v) : lookupInput (m ++ l) h0 = some v := by
  unfold lookupInput at hl ⊢
  cases hf : m.find? (fun q => q.1 = h0) with
  | none => rw [hf] at hl; cases hl
  | some q => rw [hf] at hl; rw [find?_append_some hf]; exact hl

theorem emplaceInput_lookup (m : InputMap) (h0 : Nat) (i : Input) :
    lookupInput (emplaceInput m h0 i).1 h0 = some (emplaceInput m h0 i).2 := by
  unfold emplaceInput
  cases hl : lookupInput m h0 with
  | some stored => simpa using hl
  | none =>
    unfold lookupInput at hl ⊢
    rcases Option.map_eq_none'.mp hl with hf
    simp [List.find?_append, hf]

theorem emplaceInput_preserve {m : InputMap} {hx : Nat} {v : Input} (h0 : Nat) (i : Input)
    (hl : lookupInput m hx = some v) :
    lookupInput (emplaceInput m h0 i).1 hx = some v := by
  unfold emplaceInput
  cases he : lookupInput m h0 with
  | some stored => simpa using hl
  | none => simpa using lookupInput_append _ hl

theorem addDetected_preserve {H : HashModel} {fs : FS} {ds : List Input} {st st2 : AddState}
    {outs : List (Input × Nat)} {hx : Nat} {v : Input}
    (hrun : addDetected H fs st ds = .ok (st2, outs))
    (hl : lookupInput st.inputs hx = some v) :
    lookupInput st2.inputs hx = some v := by
  induction ds generalizing st st2 outs with
  | nil =>
    simp only [addDetected, Except.ok.injEq, Prod.mk.injEq] at hrun
    rw [← hrun.1]
    exact hl
  | cons i rest ih =>
    simp only [addDetected] at hrun
    cases hr : setupInput H fs st.db i with
    | error e => rw [hr] at hrun; simp [except_bind_error] at hrun
    | ok r =>
      rw [hr] at hrun
      simp only [except_bind_ok] at hrun
      cases hres : addDetected H fs ⟨r.db, (emplaceInput st.inputs r.hash i).1⟩ rest with
      | error e => rw [hres] at hrun; simp [except_bind_error] at hrun
      | ok res =>
        rw [hres] at hrun
        simp only [except_bind_ok, Except.ok.injEq, Prod.mk.injEq] at hrun
        have hstep : lookupInput
            (AddState.mk r.db (emplaceInput st.inputs r.hash i).1).inputs hx = some v :=
          emplaceInput_preserve r.hash i hl
        have hout := ih hres hstep
        rw [← hrun.1]
        exact hout

theorem addDetected_outs_lookup {H : HashModel} {fs : FS} {ds : List Input} {st st2 : AddState}
    {outs : List (Input × Nat)}
    (hrun : addDetected H fs st ds = .ok (st2, outs)) :
    ∀ p ∈ outs, lookupInput st2.inputs p.2 = some p.1 := by
  induction ds generalizing st st2 outs with
  | nil =>
    simp only [addDetected, Except.ok.injEq, Prod.mk.injEq] at hrun
    rw [← hrun.2]
    intro p hp
    simp at hp
  | cons i rest ih =>
    simp only [addDetected] at hrun
    cases hr : setupInput H fs st.db i with
    | error e => rw [hr] at hrun; simp [except_bind_error] at hrun
    | ok r =>
      rw [hr] at hrun
      simp only [except_bind_ok] at hrun
      cases hres : addDetected H fs ⟨r.db, (emplaceInput st.inputs r.hash i).1⟩ rest with
      | error e => rw [hres] at hrun; simp [except_bind_error] at hrun
      | ok res =>
        rw [hres] at hrun
        simp only [except_bind_ok, Except.ok.injEq, Prod.mk.injEq] at hrun
        intro p hp
        rw [← hrun.2] at hp
        rw [← hrun.1]
        rcases List.mem_cons.mp hp with hp1 | hp2
        · subst hp1
          exact addDetected_preserve hres (emplaceInput_lookup st.inputs r.hash i)
        · exact ih hres p hp2

/-- C3: the context caches inputs by hash. Along any detected-input list,
every returned entry is the object stored in the cache under its hash, two
entries with equal hashes are the same stored object, and an entry whose
hash was already cached when the run began is the originally cached
object (the later detection reuses it instead of inserting a new one). -/
theorem c3_addInput_cache (H : HashModel) (fs : FS) (st : AddState) (ds : List Input)
    (st2 : AddState) (outs : List (Input × Nat))
    (hrun : addDetected H fs st ds = .ok (st2, outs)) :
    (∀ p ∈ outs, lookupInput st2.inputs p.2 = some p.1)
  ∧ (∀ p ∈ outs, ∀ q ∈ outs, p.2 = q.2 → p.1 = q.1)
  ∧ (∀ p ∈ outs, ∀ v, lookupInput st.inputs p.2 = some v → p.1 = v) := by
  refine ⟨addDetected_outs_lookup hrun, ?_, ?_⟩
  · intro p hp q hq hpq
    have h1 := addDetected_outs_lookup hrun p hp
    have h2 := addDetected_outs_lookup hrun q hq
    rw [hpq] at h1
    rw [h1] at h2
    exact Option.some_inj.mp h2
  · intro p hp v hv
    have h1 := addDetected_outs_lookup hrun p hp
    have h2 := addDetected_preserve hrun hv
    rw [h2] at h1
    exact (Option.some_inj.mp h1).symm

/-- Witness for C3: two distinct detected input objects (objIds 1 and 2)
for the same path end up with the same hash, and the second is represented
by the object stored at the first detection. -/
theorem c3_addInput_cache_witness :
    addDetected demoHash [⟨"sw.cpp", "abc", 5⟩] ⟨[], []⟩
        [⟨1, "sw.cpp", InputType.specificationFile, ["sw.cpp"]⟩,
         ⟨2, "sw.cpp", InputType.specificationFile, ["sw.cpp"]⟩] =
      .ok (⟨[⟨0, "sw.cpp", 3, 5⟩],
            [(3, ⟨1, "sw.cpp", InputType.specificationFile, ["sw.cpp"]⟩)]⟩,
        [(⟨1, "sw.cpp", InputType.specificationFile, ["sw.cpp"]⟩, 3),
         (⟨1, "sw.cpp", InputType.specificationFile, ["sw.cpp"]⟩, 3)]) ∧
    (∀ p ∈ [(⟨1, "sw.cpp", InputType.specificationFile, ["sw.cpp"]⟩, 3),
            (⟨1, "sw.cpp", InputType.specificationFile, ["sw.cpp"]⟩, 3)],
      ∀ q ∈ [(⟨1, "sw.cpp", InputType.specificationFile, ["sw.cpp"]⟩, 3),
             (⟨1, "sw.cpp", InputType.specificationFile, ["sw.cpp"]⟩, 3)],
      (p : Input × Nat).2 = q.2 → p.1 = q.1) :=
  ⟨rfl,
    (c3_addInput_cache demoHash [⟨"sw.cpp", "abc", 5⟩] ⟨[], []⟩
      [⟨1, "sw.cpp", InputType.specificationFile, ["sw.cpp"]⟩,
       ⟨2, "sw.cpp", InputType.specificationFile, ["sw.cpp"]⟩]
      ⟨[⟨0, "sw.cpp", 3, 5⟩],
        [(3, ⟨1, "sw.cpp", InputType.specificationFile, ["sw.cpp"]⟩)]⟩
      [(⟨1, "sw.cpp", InputType.specificationFile, ["sw.cpp"]⟩, 3),
       (⟨1, "sw.cpp", InputType.specificationFile, ["sw.cpp"]⟩, 3)] rfl).2.1⟩

theorem findDriver_skip (H : HashModel) (fs : FS) (detect : Detect) (dp : String)
    (d : DriverId) (rest : List (String × DriverId)) (p : SwPath) (ty : InputType)
    (st : AddState) (hdet : detect d p ty = []) :
    findDriver H fs detect ((dp, d) :: rest) p ty st =
      findDriver H fs detect rest p ty st := by
  simp [findDriver, hdet]

theorem findDriver_none (H : HashModel) (fs : FS) (detect : Detect)
    (drivers : List (String × DriverId)) (p : SwPath) (ty : InputType) (st : AddState)
    (hall : ∀ q ∈ drivers, detect q.2 p ty = []) :
    findDriver H fs detect drivers p ty st = .ok none := by
  induction drivers with
  | nil => rfl
  | cons q rest ih =>
    obtain ⟨dp, d⟩ := q
    rw [findDriver_skip H fs detect dp d rest p ty st (hall (dp, d) (by simp))]
    exact ih (fun q2 hq => hall q2 (by simp [hq]))

/-- C6: during addInput a driver whose detection returns an empty list is
skipped and the next driver is tried; if no registered driver accepts the
path (for either input type tried for this file kind), the run aborts with
the no-driver-accepted error before anything is scheduled. -/
theorem c6_driver_selection (H : HashModel) (fs : FS) (detect : Detect)
    (drivers : List (String × DriverId)) (p : SwPath) (st : AddState) :
    (∀ (dp : String) (d : DriverId) (rest : List (String × DriverId)) (ty : InputType),
        detect d p ty = [] →
        findDriver H fs detect ((dp, d) :: rest) p ty st =
          findDriver H fs detect rest p ty st)
  ∧ ((∀ q ∈ drivers, detect q.2 p InputType.specificationFile = [] ∧
        detect q.2 p InputType.inlineSpecification = []) →
      addInputPath H fs detect drivers p FileKind.regular st = .error .noDriverAccepted)
  ∧ ((∀ q ∈ drivers, detect q.2 p InputType.directorySpecificationFile = [] ∧
        detect q.2 p InputType.directory = []) →
      addInputPath H fs detect drivers p FileKind.directory st =
        .error .noDriverAccepted) := by
  refine ⟨?_, ?_, ?_⟩
  · intro dp d rest ty hdet
    exact findDriver_skip H fs detect dp d rest p ty st hdet
  · intro hall
    have h1 := findDriver_none H fs detect drivers p InputType.specificationFile st
      (fun q hq => (hall q hq).1)
    have h2 := findDriver_none H fs detect drivers p InputType.inlineSpecification st
      (fun q hq => (hall q hq).2)
    simp [addInputPath, tryTwoTypes, h1, h2]
  · intro hall
    have h1 := findDriver_none H fs detect drivers p InputType.directorySpecificationFile st
      (fun q hq => (hall q hq).1)
    have h2 := findDriver_none H fs detect drivers p InputType.directory st
      (fun q hq => (hall q hq).2)
    simp [addInputPath, tryTwoTypes, h1, h2]

/-- Witness for C6: one registered driver that declines everything. -/
theorem c6_driver_selection_witness :
    addInputPath demoHash [] (fun _ _ _ => []) [("org.sw.sw.driver.cpp-0.3.1", 0)]
        "project/sw.cpp" FileKind.regular ⟨[], []⟩ = .error .noDriverAccepted :=
  (c6_driver_selection demoHash [] (fun _ _ _ => []) [("org.sw.sw.driver.cpp-0.3.1", 0)]
    "project/sw.cpp" ⟨[], []⟩).2.1 (fun q _ => ⟨rfl, rfl⟩)

theorem driverLoad_no_dirspec {fs : FS} {fes : List String} {st st2 : DriverState}
    {is : List LoadInput} {ps : List String}
    (hno : ∀ dir, LoadInput.directorySpecificationFile dir ∉ is)
    (hrun : driverLoad fs fes st is = .ok (st2, ps)) : st2 = st := by
  induction is generalizing st2 ps with
  | nil =>
    simp only [driverLoad, Except.ok.injEq, Prod.mk.injEq] at hrun
    exact hrun.1.symm
  | cons i rest ih =>
    cases i with
    | installedPackage pkg =>
      simp only [driverLoad] at hrun
      cases hres : driverLoad fs fes st rest with
      | error e => rw [hres] at hrun; simp [except_bind_error] at hrun
      | ok res =>
        rw [hres] at hrun
        simp only [except_bind_ok, Except.ok.injEq, Prod.mk.injEq] at hrun
        have h2 := ih (fun dir hdir => hno dir (by simp [hdir])) hres
        rw [← hrun.1]
        exact h2
    | directorySpecificationFile dir =>
      exact absurd (List.mem_cons_self _ _) (hno dir)

theorem driverLoad_append (fs : FS) (fes : List String) (st : DriverState)
    (xs ys : List LoadInput) :
    driverLoad fs fes st (xs ++ ys) =
      match driverLoad fs fes st xs with
      | .ok res1 =>
        match driverLoad fs fes res1.1 ys with
        | .ok res2 => .ok (res2.1, res1.2 ++ res2.2)
        | .error e => .error e
      | .error e => .error e := by
  induction xs generalizing st with
  | nil =>
    simp only [List.nil_append, driverLoad]
    cases h : driverLoad fs fes st ys with
    | error e => simp [h]
    | ok res => simp [h]
  | cons i rest ih =>
    cases i with
    | installedPackage pkg =>
      simp only [List.cons_append, driverLoad, List.append_eq]
      rw [ih st]
      cases h1 : driverLoad fs fes st rest with
      | error e => simp [except_bind_error]
      | ok res1 =>
        simp only [except_bind_ok]
        cases h2 : driverLoad fs fes res1.1 ys with
        | error e => simp [h2, except_bind_error]
        | ok res2 => simp [h2, except_bind_ok]
    | directorySpecificationFile dir =>
      cases hc : findConfig fs dir fes with
      | none => simp only [List.cons_append, driverLoad, hc]
      | some cp =>
        cases hr : readFile fs cp with
        | none => simp only [List.cons_append, driverLoad, hc, hr]
        | some c =>
          simp only [List.cons_append, driverLoad, hc, hr, List.append_eq]
          exact ih ⟨c⟩

/-- C9 (amended): the specification string is a single process-wide static;
a load run whose last directory-specification input resolves to a config
file with contents c leaves the static equal to c, and every driver object
subsequently reports c from getSpecification (the value is shared across
all driver instances). -/
theorem c9_driver_spec (fs : FS) (fes : List String) (st : DriverState)
    (pre post : List LoadInput) (dir : SwPath) (st2 : DriverState) (ps : List String)
    (hpost : ∀ dir2, LoadInput.directorySpecificationFile dir2 ∉ post)
    (hrun : driverLoad fs fes st
      (pre ++ LoadInput.directorySpecificationFile dir :: post) = .ok (st2, ps)) :
    ∃ cp c, findConfig fs dir fes = some cp ∧ readFile fs cp = some c ∧
      st2.spec = c ∧ (∀ d : DriverId, getSpecification d st2 = c) ∧
      (∀ d d2 : DriverId, getSpecification d st2 = getSpecification d2 st2) := by
  rw [driverLoad_append] at hrun
  cases h1 : driverLoad fs fes st pre with
  | error e => rw [h1] at hrun; cases hrun
  | ok res1 =>
    rw [h1] at hrun
    simp only [] at hrun
    cases h2 : driverLoad fs fes res1.1 (LoadInput.directorySpecificationFile dir :: post) with
    | error e => rw [h2] at hrun; simp at hrun
    | ok res2 =>
      rw [h2] at hrun
      simp only [Except.ok.injEq, Prod.mk.injEq] at hrun
      simp only [driverLoad] at h2
      cases hc : findConfig fs dir fes with
      | none => rw [hc] at h2; cases h2
      | some cp =>
        rw [hc] at h2
        simp only [] at h2
        cases hr : readFile fs cp with
        | none => rw [hr] at h2; simp at h2
        | some c =>
          rw [hr] at h2
          simp only [] at h2
          have hst : res2.1 = ⟨c⟩ := driverLoad_no_dirspec hpost h2
          refine ⟨cp, c, rfl, hr, ?_, ?_, ?_⟩
          · rw [← hrun.1, hst]
          · intro d
            rw [getSpecification, ← hrun.1, hst]
          · intro d d2
            rfl

/-- Witness for C9 on a concrete one-input load. -/
theorem c9_driver_spec_witness :
    ∃ cp c, findConfig [⟨"proj/sw.cpp", "void build(Solution)", 1⟩] "proj" ["sw.cpp"] =
        some cp ∧
      readFile [⟨"proj/sw.cpp", "void build(Solution)", 1⟩] cp = some c ∧
      (⟨"void build(Solution)"⟩ : DriverState).spec = c ∧
      (∀ d : DriverId, getSpecification d ⟨"void build(Solution)"⟩ = c) ∧
      (∀ d d2 : DriverId, getSpecification d ⟨"void build(Solution)"⟩ =
        getSpecification d2 ⟨"void build(Solution)"⟩) :=
  c9_driver_spec [⟨"proj/sw.cpp", "void build(Solution)", 1⟩] ["sw.cpp"] ⟨""⟩ [] []
    "proj" ⟨"void build(Solution)"⟩ [] (fun dir2 => List.not_mem_nil _) rfl

/-- C9 counterexample: loading an input (an installed-package input) that
is not a directory-specification input leaves the static specification
unchanged, so loading an arbitrary input does not change the reported
specification. -/
theorem c9_counterexample :
    driverLoad [] ["sw.cpp"] ⟨"previous spec"⟩
        [LoadInput.installedPackage "org.sw.demo.madler.zlib"] =
      .ok (⟨"previous spec"⟩, ["org.sw.demo.madler.zlib"]) ∧
    getSpecification 0 ⟨"previous spec"⟩ = "previous spec" :=
  ⟨rfl, rfl⟩

end SW
